import Mathlib

/-!
Verification development for the copyright/legal-notice parser of the
`musicbrainz-scripts` repository ("Notice Parser", spec.md sections 3-8).

The repository snapshot ships only the parser's test corpus
(`copyrightTestCases`, with the exact expected output records) and its
callers; the module `src/parseCopyrightNotice.js` itself is absent.  The
definitions below therefore model the parser from the specification's
pipeline description (line segmentation, quotation stripping,
symbol-cluster recognition, year-expression extraction, boilerplate
elision, entity-name extraction with the name-protecting multi-entity
split, and relation-clause extraction), and are checked against the
literal expected outputs of the in-repo test corpus.
-/

namespace MBParse

/-- Modelled from the spec: a year value is one four-digit year string or an
ordered sequence of year strings (spec.md section 3, `year` field). -/
inductive YearVal where
  | single (y : String)
  | multi (ys : List String)
deriving Repr, DecidableEq

/-- Modelled from the spec: the `AttributionRecord` output unit of the parser
(spec.md section 3): a trimmed entity name, an ordered list of attribution
types, and an optional year value (absent when no year was found). -/
structure CopyrightItem where
  name : String
  types : List String
  year : Option YearVal := none
deriving Repr, DecidableEq

/-- Rights symbols are the canonical glyphs of the copyright and the
phonogram right (spec.md Glossary). -/
def isSym (c : Char) : Bool := c == '©' || c == '℗'

/-- One-character string for a rights-symbol glyph. -/
def symStr (c : Char) : String := String.mk [c]

/-- ASCII letters and digits count as word characters for word-boundary and
abbreviation tests. -/
def isAlnumC (c : Char) : Bool := c.isAlpha || c.isDigit

def skipSpaces (l : List Char) : List Char := l.dropWhile (fun c => c == ' ')

/-- Removes trailing characters satisfying `p`. -/
def dropTrailing (p : Char → Bool) (l : List Char) : List Char :=
  (l.reverse.dropWhile p).reverse

/-- Case-insensitive pattern match at the start of the text: `eatCI pat l`
returns the remainder of `l` after `pat` when the lowercased text starts
with `pat`, and `none` otherwise (pattern-match failure is "no match"). -/
def eatCI : List Char → List Char → Option (List Char)
  | [], l => some l
  | _ :: _, [] => none
  | p :: ps, c :: cs => if c.toLower == p then eatCI ps cs else none

/-- Modelled from the spec: the fixed relation-phrase vocabulary and the
`types` values each phrase maps to (spec.md section 4.1 step 7); both
spellings licenced/licensed are accepted and normalized to "licensed". -/
def relPhrases : List (String × List String) := [
  ("marketed and distributed by ", ["marketed by", "distributed by"]),
  ("under exclusive licence to ", ["licensed to"]),
  ("under exclusive license to ", ["licensed to"]),
  ("licenced to ", ["licensed to"]),
  ("licensed to ", ["licensed to"]),
  ("licenced from ", ["licensed from"]),
  ("licensed from ", ["licensed from"]),
  ("distributed by ", ["distributed by"]),
  ("marketed by ", ["marketed by"])]

def matchRelAux : List (String × List String) → List Char → Option (List String × List Char)
  | [], _ => none
  | (pat, ts) :: more, l =>
    match eatCI pat.toList l with
    | some r => some (ts, r)
    | none => matchRelAux more l

/-- Tries to read one relation phrase at the start of the text, returning its
`types` values and the remainder after the phrase. -/
def matchRel (l : List Char) : Option (List String × List Char) :=
  matchRelAux relPhrases l

/-- Trailing legal boilerplate terminating a name span (spec.md 4.1 step 6). -/
def arrChars : List Char := "all rights reserved".toList

/-- Company-suffix abbreviations that protect a trailing period and a
preceding comma from being treated as terminators. -/
def abbrevSet : List String := ["Inc", "LLC", "LLP", "Ltd"]

/-- Does the (reversed) accumulated span end in a protected abbreviation? -/
def lastWordAbbrev (accRev : List Char) : Bool :=
  abbrevSet.contains (String.mk (accRev.takeWhile isAlnumC).reverse)

/-- Does a company-suffix word follow (after spaces)?  Used to keep a comma
inside names such as "Capitol Records, LLC". -/
def suffixAfterComma (rest : List Char) : Bool :=
  abbrevSet.contains (String.mk ((skipSpaces rest).takeWhile isAlnumC))

def nonWordNext : List Char → Bool
  | [] => true
  | c :: _ => !(isAlnumC c)

/-- Modelled from the spec: the name span runs up to a terminator - end of
line, a following relation keyword, trailing boilerplate such as
"All Rights Reserved.", or sentence/list punctuation that is not part of a
company-suffix abbreviation (spec.md 4.1 step 6 and the expected outputs of
the in-repo test corpus). `accRev` holds the consumed span reversed and
`prevW` tells whether the previous character was a word character (relation
keywords only terminate at word boundaries). -/
def takeNameAux : List Char → Bool → List Char → List Char
  | accRev, _, [] => accRev.reverse
  | accRev, prevW, c :: rest =>
    if c == ';' then accRev.reverse
    else if c == ',' && !(suffixAfterComma rest) then accRev.reverse
    else if c == '.' && nonWordNext rest && !(lastWordAbbrev accRev) then accRev.reverse
    else if !prevW && ((matchRel (c :: rest)).isSome || (eatCI arrChars (c :: rest)).isSome) then
      accRev.reverse
    else takeNameAux (c :: accRev) (isAlnumC c) rest

def takeName (l : List Char) : List Char := takeNameAux [] false l

/-- Modelled from the spec: names are trimmed, with trailing list punctuation
removed; a sentence-final period is stripped unless it belongs to a
company-suffix abbreviation (spec.md section 3, `name` invariant). -/
def cleanName (span : List Char) : String :=
  let t := dropTrailing (fun c => c == ' ' || c == ',' || c == ';') (skipSpaces span)
  match t.reverse with
  | '.' :: s =>
    if abbrevSet.contains (String.mk (s.takeWhile isAlnumC).reverse) then String.mk t
    else String.mk s.reverse
  | _ => String.mk t

/-- Modelled from the spec: a true list split must be followed by a plausible
independent name - non-empty and not a one-letter abbreviation fragment such
as the "S" of "Universal Music A/S" (spec.md 4.1 step 6). -/
def plausibleName (r : List Char) : Bool :=
  match r with
  | ' ' :: _ => true
  | _ =>
    match r.takeWhile isAlnumC with
    | _ :: _ :: _ => true
    | _ => false

/-- Modelled from the spec: the multi-entity split of a name span on the list
separators "/", "|" and spaced hyphen/dash, protected by the plausibility
test (spec.md 4.1 step 6). -/
def splitNamesAux : List Char → List Char → List (List Char)
  | accRev, [] => [accRev.reverse]
  | accRev, '/' :: r =>
    if plausibleName r then accRev.reverse :: splitNamesAux [] r
    else splitNamesAux ('/' :: accRev) r
  | accRev, '|' :: r =>
    if plausibleName r then accRev.reverse :: splitNamesAux [] r
    else splitNamesAux ('|' :: accRev) r
  | accRev, ' ' :: '-' :: ' ' :: r => accRev.reverse :: splitNamesAux [] r
  | accRev, ' ' :: '–' :: ' ' :: r => accRev.reverse :: splitNamesAux [] r
  | accRev, c :: r => splitNamesAux (c :: accRev) r

def splitNames (l : List Char) : List (List Char) := splitNamesAux [] l

/-- Reads one four-digit year (not followed by a further digit). -/
def parseYear4 : List Char → Option (String × List Char)
  | a :: b :: c :: d :: r =>
    if a.isDigit && b.isDigit && c.isDigit && d.isDigit &&
        (match r with | e :: _ => !e.isDigit | [] => true) then
      some (String.mk [a, b, c, d], r)
    else none
  | _ => none

/-- Reads a year-list separator: a comma, an ampersand, or the word "and"
(spec.md 4.1 step 4). -/
def yearSep (l : List Char) : Option (List Char) :=
  match skipSpaces l with
  | ',' :: r => some (skipSpaces r)
  | '&' :: r => some (skipSpaces r)
  | 'a' :: 'n' :: 'd' :: ' ' :: r => some r
  | _ => none

def parseYearsMore : Nat → List Char → List String × List Char
  | 0, l => ([], l)
  | fuel + 1, l =>
    match yearSep l with
    | some r =>
      match parseYear4 r with
      | some (y, r2) =>
        let p := parseYearsMore fuel r2
        (y :: p.1, p.2)
      | none => ([], l)
    | none => ([], l)

/-- Modelled from the spec: a year expression is one four-digit year or a
delimited list of four-digit years joined by commas and/or "&"/"and",
preserving input order (spec.md 4.1 step 4). -/
def parseYears (l : List Char) : List String × List Char :=
  match parseYear4 l with
  | some (y, r) =>
    let p := parseYearsMore r.length r
    (y :: p.1, p.2)
  | none => ([], l)

def splitFirstAux (pat : List Char) (accRev : List Char) : List Char → Option (List Char × List Char)
  | [] => none
  | c :: rest =>
    match eatCI pat (c :: rest) with
    | some r => some (accRev.reverse, r)
    | none => splitFirstAux pat (c :: accRev) rest

/-- Splits the text at the first case-insensitive occurrence of `pat`,
returning the parts before and after it. -/
def splitFirst (pat : String) (l : List Char) : Option (List Char × List Char) :=
  splitFirstAux pat.toList [] l

/-- Tries to consume a fixed phrase (case-insensitively) and any following
spaces; yields the input unchanged when the phrase is not there. -/
def tryEat (pat : String) (l : List Char) : List Char :=
  match eatCI pat.toList l with
  | some r => skipSpaces r
  | none => l

/-- Modelled from the spec: descriptive filler between the symbol/year and
the entity name is recognized and skipped (spec.md 4.1 step 5). -/
def tryEatBoiler (l : List Char) : List Char :=
  tryEat "the copyright in this compilation is owned by "
    (tryEat "the copyright in this sound recording is owned by " l)

/-- Modelled from the spec: year extraction after a symbol cluster, allowing
intervening descriptive words ("Digital Remaster") and discarding a leading
release label before a semicolon in favor of the year that follows it
(spec.md 4.1 steps 4-5 and the tie-break policies of section 4.1). -/
def segYears (r : List Char) : List String × List Char :=
  let l1 := tryEat "digital remaster" (skipSpaces r)
  let p := parseYears l1
  if p.1.isEmpty then
    match splitFirst ";" l1 with
    | some (_, tail) =>
      let q := parseYears (skipSpaces tail)
      if q.1.isEmpty then p else q
    | none => p
  else p

def mkYear : List String → Option YearVal
  | [] => none
  | [y] => some (YearVal.single y)
  | ys => some (YearVal.multi ys)

/-- Modelled from the spec: the records of one notice segment anchored by a
symbol cluster: year expression, boilerplate elision, name-span extraction,
multi-entity split; every entity inherits the cluster's `types` and year,
and segments whose name resolves to nothing are dropped (spec.md 4.1
steps 4-6, section 7). -/
def segItems (syms : List String) (r : List Char) : List CopyrightItem :=
  let p := segYears r
  let l5 := tryEat "by " (tryEatBoiler (skipSpaces p.2))
  let span := takeName l5
  (((splitNames span).map cleanName).filter (fun n => !(n == ""))).map
    (fun n => { name := n, types := syms, year := mkYear p.1 })

/-- Tries to read the second symbol of a combined cluster: the two glyphs
appear adjacently or joined by "&" (spec.md 4.1 step 3). -/
def secondSym (l : List Char) : Option (Char × List Char) :=
  match l.dropWhile (fun c => c == ' ' || c == '&') with
  | c :: r => if isSym c then some (c, r) else none
  | [] => none

/-- Modelled from the spec: the lexical scan locating rights-symbol clusters;
each cluster anchors one notice segment, and the cluster's `types` preserve
the left-to-right order of the glyphs (spec.md 4.1 step 3).  The fuel
argument bounds the scan by the text length; every step consumes at least
one character, so `scanRights` below never exhausts it. -/
def scanRightsF : Nat → List Char → List CopyrightItem
  | 0, _ => []
  | _ + 1, [] => []
  | n + 1, c :: rest =>
    if isSym c then
      match secondSym rest with
      | some (c2, r) => segItems [symStr c, symStr c2] r ++ scanRightsF n r
      | none => segItems [symStr c] rest ++ scanRightsF n rest
    else scanRightsF n rest

def scanRights (l : List Char) : List CopyrightItem := scanRightsF l.length l

/-- Modelled from the spec: the relation-clause pass scans the full line for
the fixed relation phrases at word boundaries; each match yields one record
with the named entity and no year (spec.md 4.1 step 7). -/
def scanRelF : Nat → Bool → List Char → List CopyrightItem
  | 0, _, _ => []
  | _ + 1, _, [] => []
  | n + 1, prevW, c :: rest =>
    if prevW then scanRelF n (isAlnumC c) rest
    else
      match matchRel (c :: rest) with
      | some (ts, r) =>
        (if cleanName (takeName (skipSpaces r)) == "" then []
         else [{ name := cleanName (takeName (skipSpaces r)), types := ts,
                 year := none : CopyrightItem }]) ++
          scanRelF n false r
      | none => scanRelF n (isAlnumC c) rest

def scanRel (l : List Char) : List CopyrightItem := scanRelF l.length false l

/-- Modelled from the spec: enclosing guillemets are a formatting convention,
not semantic content, and are removed before analysis (spec.md 4.1 step 2). -/
def stripQuotes (l : List Char) : List Char :=
  l.filter (fun c => !(c == '«' || c == '»'))

/-- Modelled from the spec: textual aliases "(P)"/"(C)" (either case) are
normalized to the canonical glyphs before scanning (spec.md 4.1 step 3). -/
def normAliases : List Char → List Char
  | '(' :: 'P' :: ')' :: rest => '℗' :: normAliases rest
  | '(' :: 'p' :: ')' :: rest => '℗' :: normAliases rest
  | '(' :: 'C' :: ')' :: rest => '©' :: normAliases rest
  | '(' :: 'c' :: ')' :: rest => '©' :: normAliases rest
  | c :: rest => c :: normAliases rest
  | [] => []

/-- Modelled from the spec: a region-qualified clause "X for the region and Y
for the world outside the region" is rewritten to a two-entity list so both
entities share the cluster and year (spec.md 4.1 step 6). -/
def regionTransform (l : List Char) : List Char :=
  match splitFirst " for " l with
  | none => l
  | some (x, rest1) =>
    match splitFirst " and " rest1 with
    | none => l
    | some (_, rest2) =>
      match splitFirst " for the world outside " rest2 with
      | none => l
      | some (y, _) => x ++ (' ' :: '/' :: ' ' :: y)

def normLine (l : List Char) : List Char :=
  regionTransform (normAliases (stripQuotes l))

/-- Records of one line: the rights-symbol pass followed by the
relation-clause pass. -/
def lineRecords (line : List Char) : List CopyrightItem :=
  scanRights (normLine line) ++ scanRel (normLine line)

/-- Splits the input on line boundaries (spec.md 4.1 step 1). -/
def splitLines : List Char → List (List Char)
  | [] => [[]]
  | c :: rest =>
    let r := splitLines rest
    if c = '\n' then [] :: r else (c :: r.headD []) :: r.tail

/-- Modelled from the spec: `parse(text)`, the Notice Parser's sole entry
point - the module `src/parseCopyrightNotice.js` is absent from the
snapshot, so this follows spec.md section 4.1: each line is parsed
independently and the per-line results are concatenated in source order. -/
def parseCopyrightNotice (text : String) : List CopyrightItem :=
  ((splitLines text.toList).map lineRecords).flatten

/-- No relation phrase occurs at any position of the text (decidable).  Used
to state the no-recognizable-content guarantee. -/
def relFreeB (l : List Char) : Bool :=
  (List.range (l.length + 1)).all (fun i => (matchRel (l.drop i)).isNone)

/-- Well-formedness of a record's year field: either absent, or one four-digit
year string, or at least two four-digit year strings - never a null or empty
sentinel. -/
def yearOk : Option YearVal → Prop
  | none => True
  | some (YearVal.single y) => y.length = 4
  | some (YearVal.multi ys) => 2 ≤ ys.length ∧ ∀ y ∈ ys, y.length = 4

/-- The closed attribution-type vocabulary (spec.md Glossary). -/
def typeVocab : List String :=
  ["©", "℗", "licensed to", "licensed from", "distributed by", "marketed by"]

theorem dropWhile_len_le (p : Char → Bool) : ∀ l : List Char, (l.dropWhile p).length ≤ l.length := by
  intro l
  induction l with
  | nil => simp
  | cons c rest ih =>
    rw [List.dropWhile_cons]
    by_cases hp : p c = true
    · rw [if_pos hp]; exact Nat.le_succ_of_le ih
    · rw [if_neg hp]

theorem secondSym_len {l : List Char} {c2 : Char} {r : List Char}
    (h : secondSym l = some (c2, r)) : r.length < l.length := by
  have hle := dropWhile_len_le (fun c => c == ' ' || c == '&') l
  unfold secondSym at h
  cases hd : l.dropWhile (fun c => c == ' ' || c == '&') with
  | nil => rw [hd] at h; simp at h
  | cons a t =>
    rw [hd] at h
    rw [hd] at hle
    by_cases ha : isSym a = true
    · simp only [ha, if_true] at h
      obtain ⟨-, rfl⟩ : a = c2 ∧ t = r := by simpa using h
      simp only [List.length_cons] at hle
      omega
    · simp [ha] at h

theorem secondSym_isSym {l : List Char} {c2 : Char} {r : List Char}
    (h : secondSym l = some (c2, r)) : isSym c2 = true := by
  unfold secondSym at h
  cases hd : l.dropWhile (fun c => c == ' ' || c == '&') with
  | nil => rw [hd] at h; simp at h
  | cons a t =>
    rw [hd] at h
    by_cases ha : isSym a = true
    · simp only [ha, if_true] at h
      obtain ⟨rfl, -⟩ : a = c2 ∧ t = r := by simpa using h
      exact ha
    · simp [ha] at h

theorem eatCI_len : ∀ (ps l r : List Char), eatCI ps l = some r → r.length + ps.length = l.length := by
  intro ps
  induction ps with
  | nil =>
    intro l r h
    simp only [eatCI, Option.some.injEq] at h
    subst h; simp
  | cons p ps ih =>
    intro l r h
    cases l with
    | nil => simp [eatCI] at h
    | cons c cs =>
      simp only [eatCI] at h
      by_cases hc : (c.toLower == p) = true
      · rw [if_pos hc] at h
        have := ih cs r h
        simp only [List.length_cons]
        omega
      · rw [if_neg hc] at h; simp at h

theorem matchRelAux_spec :
    ∀ (tbl : List (String × List String)) (l : List Char) (ts : List String) (r : List Char),
    matchRelAux tbl l = some (ts, r) →
    ∃ pat, (pat, ts) ∈ tbl ∧ eatCI pat.toList l = some r := by
  intro tbl
  induction tbl with
  | nil => intro l ts r h; simp [matchRelAux] at h
  | cons e more ih =>
    intro l ts r h
    obtain ⟨pat, ts0⟩ := e
    simp only [matchRelAux] at h
    cases he : eatCI pat.toList l with
    | some r0 =>
      rw [he] at h
      obtain ⟨rfl, rfl⟩ : ts0 = ts ∧ r0 = r := by simpa using h
      exact ⟨pat, by simp, he⟩
    | none =>
      rw [he] at h
      obtain ⟨pat2, hm, he2⟩ := ih l ts r h
      exact ⟨pat2, by simp [hm], he2⟩

theorem matchRel_len {l : List Char} {ts : List String} {r : List Char}
    (h : matchRel l = some (ts, r)) : r.length < l.length := by
  obtain ⟨pat, hmem, he⟩ := matchRelAux_spec relPhrases l ts r h
  have hlen := eatCI_len pat.toList l r he
  have hpos : 1 ≤ pat.toList.length := by
    have : ∀ q ∈ relPhrases, 1 ≤ q.1.toList.length := by decide
    exact this (pat, ts) hmem
  omega

theorem matchRel_types {l : List Char} {ts : List String} {r : List Char}
    (h : matchRel l = some (ts, r)) : ts ∈ relPhrases.map Prod.snd := by
  obtain ⟨pat, hmem, -⟩ := matchRelAux_spec relPhrases l ts r h
  exact List.mem_map.mpr ⟨(pat, ts), hmem, rfl⟩

theorem symStr_cases {c : Char} (h : isSym c = true) : symStr c = "©" ∨ symStr c = "℗" := by
  have : c = '©' ∨ c = '℗' := by
    simpa [isSym] using h
  rcases this with rfl | rfl
  · left; rfl
  · right; rfl

theorem parseYear4_ylen : ∀ (l : List Char) (y : String) (r : List Char),
    parseYear4 l = some (y, r) → y.length = 4 := by
  intro l y r h
  match l with
  | [] => simp [parseYear4] at h
  | [_] => simp [parseYear4] at h
  | [_, _] => simp [parseYear4] at h
  | [_, _, _] => simp [parseYear4] at h
  | a :: b :: c :: d :: t =>
    simp only [parseYear4] at h
    split at h
    · obtain ⟨rfl, -⟩ : String.mk [a, b, c, d] = y ∧ t = r := by simpa using h
      rfl
    · simp at h

theorem parseYearsMore_mem : ∀ (n : Nat) (l : List Char) (y : String),
    y ∈ (parseYearsMore n l).1 → y.length = 4 := by
  intro n
  induction n with
  | zero => intro l y h; simp [parseYearsMore] at h
  | succ n ih =>
    intro l y h
    simp only [parseYearsMore] at h
    split at h
    · split at h
      · rename_i hy
        simp only [List.mem_cons] at h
        rcases h with rfl | h
        · exact parseYear4_ylen _ _ _ hy
        · exact ih _ _ h
      · simp at h
    · simp at h

theorem parseYears_mem : ∀ (l : List Char) (y : String),
    y ∈ (parseYears l).1 → y.length = 4 := by
  intro l y h
  simp only [parseYears] at h
  cases hy : parseYear4 l with
  | none => rw [hy] at h; simp at h
  | some p =>
    obtain ⟨y0, r⟩ := p
    rw [hy] at h
    simp only [List.mem_cons] at h
    rcases h with rfl | h
    · exact parseYear4_ylen l y r hy
    · exact parseYearsMore_mem r.length r y h

theorem segYears_mem : ∀ (r : List Char) (y : String),
    y ∈ (segYears r).1 → y.length = 4 := by
  intro r y h
  simp only [segYears] at h
  split at h
  · split at h
    · split at h
      · exact parseYears_mem _ y h
      · exact parseYears_mem _ y h
    · exact parseYears_mem _ y h
  · exact parseYears_mem _ y h

theorem mkYear_ok {ys : List String} (h : ∀ y ∈ ys, y.length = 4) : yearOk (mkYear ys) := by
  match ys with
  | [] => trivial
  | [y] => exact h y (by simp)
  | y1 :: y2 :: t =>
    refine ⟨by simp, h⟩

theorem segItems_mem {syms : List String} {r : List Char} {item : CopyrightItem}
    (h : item ∈ segItems syms r) :
    item.types = syms ∧ item.name ≠ "" ∧ yearOk item.year := by
  simp only [segItems] at h
  rw [List.mem_map] at h
  obtain ⟨n, hn, rfl⟩ := h
  rw [List.mem_filter] at hn
  obtain ⟨-, hne⟩ := hn
  refine ⟨rfl, by simpa using hne, ?_⟩
  exact mkYear_ok (fun y hy => segYears_mem r y hy)

theorem scanRightsF_mem : ∀ (n : Nat) (l : List Char) (item : CopyrightItem),
    item ∈ scanRightsF n l →
    item.types ≠ [] ∧ (∀ t ∈ item.types, t = "©" ∨ t = "℗") ∧
    item.name ≠ "" ∧ yearOk item.year := by
  intro n
  induction n with
  | zero => intro l item h; simp [scanRightsF] at h
  | succ n ih =>
    intro l item h
    cases l with
    | nil => simp [scanRightsF] at h
    | cons c rest =>
      simp only [scanRightsF] at h
      by_cases hc : isSym c = true
      · simp only [hc, if_true] at h
        cases hs : secondSym rest with
        | some p =>
          obtain ⟨c2, r⟩ := p
          rw [hs] at h
          simp only [List.mem_append] at h
          rcases h with h | h
          · obtain ⟨hty, hnm, hyr⟩ := segItems_mem h
            refine ⟨by rw [hty]; simp, ?_, hnm, hyr⟩
            intro t ht
            rw [hty] at ht
            simp only [List.mem_cons, List.mem_singleton] at ht
            rcases ht with rfl | rfl | hfalse
            · exact symStr_cases hc
            · exact symStr_cases (secondSym_isSym hs)
            · simp at hfalse
          · exact ih r item h
        | none =>
          rw [hs] at h
          simp only [List.mem_append] at h
          rcases h with h | h
          · obtain ⟨hty, hnm, hyr⟩ := segItems_mem h
            refine ⟨by rw [hty]; simp, ?_, hnm, hyr⟩
            intro t ht
            rw [hty] at ht
            simp only [List.mem_singleton] at ht
            subst ht
            exact symStr_cases hc
          · exact ih rest item h
      · simp only [hc, if_false] at h
        exact ih rest item h

theorem scanRelF_mem : ∀ (n : Nat) (b : Bool) (l : List Char) (item : CopyrightItem),
    item ∈ scanRelF n b l →
    item.year = none ∧ item.name ≠ "" ∧ item.types ∈ relPhrases.map Prod.snd := by
  intro n
  induction n with
  | zero => intro b l item h; simp [scanRelF] at h
  | succ n ih =>
    intro b l item h
    cases l with
    | nil => simp [scanRelF] at h
    | cons c rest =>
      simp only [scanRelF] at h
      split at h
      · exact ih _ rest item h
      · split at h
        · rename_i ts r hm
          rw [List.mem_append] at h
          rcases h with h | h
          · split at h
            · simp at h
            · rename_i hne
              simp only [List.mem_singleton] at h
              subst h
              exact ⟨rfl, by simpa using hne, matchRel_types hm⟩
          · exact ih _ r item h
        · exact ih _ rest item h

theorem scanRightsF_noSym : ∀ (n : Nat) (l : List Char),
    l.all (fun c => !(isSym c)) = true → scanRightsF n l = [] := by
  intro n
  induction n with
  | zero => intro l _; rfl
  | succ n ih =>
    intro l hall
    cases l with
    | nil => rfl
    | cons c rest =>
      rw [List.all_cons] at hall
      obtain ⟨hc, hrest⟩ := by simpa using hall
      simp only [scanRightsF]
      rw [if_neg (by simp [hc])]
      exact ih rest (by simpa using hrest)

theorem relFreeB_head {l : List Char} (h : relFreeB l = true) : matchRel l = none := by
  have h0 := (List.all_eq_true.mp h) 0 (by simp)
  rw [List.drop_zero] at h0
  exact Option.isNone_iff_eq_none.mp h0

theorem relFreeB_tail {c : Char} {l : List Char} (h : relFreeB (c :: l) = true) :
    relFreeB l = true := by
  rw [relFreeB, List.all_eq_true] at h ⊢
  intro i hi
  rw [List.mem_range] at hi
  have := h (i + 1) (by rw [List.mem_range, List.length_cons]; omega)
  simpa [List.drop_succ_cons] using this

theorem scanRelF_relFree : ∀ (n : Nat) (b : Bool) (l : List Char),
    relFreeB l = true → scanRelF n b l = [] := by
  intro n
  induction n with
  | zero => intro b l _; rfl
  | succ n ih =>
    intro b l h
    cases l with
    | nil => cases b <;> rfl
    | cons c rest =>
      have hm : matchRel (c :: rest) = none := relFreeB_head h
      have ht : relFreeB rest = true := relFreeB_tail h
      simp only [scanRelF]
      split
      · exact ih _ rest ht
      · rw [hm]
        exact ih _ rest ht

theorem scanRightsF_stable : ∀ (n m : Nat) (l : List Char), l.length ≤ n → l.length ≤ m →
    scanRightsF n l = scanRightsF m l := by
  intro n
  induction n with
  | zero =>
    intro m l hn _
    have : l = [] := by
      cases l with
      | nil => rfl
      | cons c rest => simp at hn
    subst this
    cases m <;> rfl
  | succ n ih =>
    intro m l hn hm
    cases l with
    | nil => cases m <;> rfl
    | cons c rest =>
      cases m with
      | zero => simp at hm
      | succ m =>
        simp only [List.length_cons] at hn hm
        simp only [scanRightsF]
        by_cases hc : isSym c = true
        · rw [if_pos hc, if_pos hc]
          split
          · rename_i c2 r hs
            have hr := secondSym_len hs
            rw [ih m r (by omega) (by omega)]
          · rw [ih m rest (by omega) (by omega)]
        · rw [if_neg hc, if_neg hc]
          exact ih m rest (by omega) (by omega)

theorem splitLines_noNL : ∀ l : List Char, l.all (fun c => !(c == '\n')) = true →
    splitLines l = [l] := by
  intro l
  induction l with
  | nil => intro _; rfl
  | cons c rest ih =>
    intro h
    rw [List.all_cons] at h
    obtain ⟨hc, hrest⟩ := by simpa using h
    simp only [splitLines]
    rw [ih (by simpa using hrest), if_neg hc]
    rfl

theorem splitLines_append : ∀ (a b : List Char), a.all (fun c => !(c == '\n')) = true →
    splitLines (a ++ '\n' :: b) = a :: splitLines b := by
  intro a
  induction a with
  | nil =>
    intro b _
    simp only [List.nil_append, splitLines]
    simp
  | cons c a2 ih =>
    intro b h
    rw [List.all_cons] at h
    obtain ⟨hc, ha2⟩ := by simpa using h
    simp only [List.cons_append, splitLines, List.append_eq]
    rw [ih b (by simpa using ha2), if_neg hc]
    rfl

/-- Every record of any parse result is well-formed: nonempty `types` drawn
from the closed vocabulary, a nonempty name, a well-formed year field, and a
year only in the presence of a rights-symbol type. -/
theorem parse_item_inv : ∀ (text : String) (item : CopyrightItem),
    item ∈ parseCopyrightNotice text →
    item.types ≠ [] ∧ (∀ t ∈ item.types, t ∈ typeVocab) ∧ item.name ≠ "" ∧
    yearOk item.year ∧ (item.year ≠ none → "©" ∈ item.types ∨ "℗" ∈ item.types) := by
  intro text item h
  simp only [parseCopyrightNotice] at h
  rw [List.mem_flatten] at h
  obtain ⟨recs, hrecs, hitem⟩ := h
  rw [List.mem_map] at hrecs
  obtain ⟨line, -, rfl⟩ := hrecs
  simp only [lineRecords] at hitem
  rw [List.mem_append] at hitem
  rcases hitem with h | h
  · obtain ⟨hne, hall, hnm, hyr⟩ := scanRightsF_mem _ _ item h
    refine ⟨hne, ?_, hnm, hyr, ?_⟩
    · intro t ht
      rcases hall t ht with rfl | rfl <;> simp [typeVocab]
    · intro _
      cases hty : item.types with
      | nil => exact absurd hty hne
      | cons t ts =>
        have hmem : t ∈ item.types := by rw [hty]; exact List.mem_cons_self t ts
        rcases hall t hmem with rfl | rfl
        · exact Or.inl (List.mem_cons_self _ _)
        · exact Or.inr (List.mem_cons_self _ _)
  · obtain ⟨hyr, hnm, hts⟩ := scanRelF_mem _ _ _ item h
    have hvoc : item.types = ["marketed by", "distributed by"] ∨ item.types = ["licensed to"] ∨
        item.types = ["licensed from"] ∨ item.types = ["distributed by"] ∨
        item.types = ["marketed by"] := by
      simpa [relPhrases] using hts
    have hne : item.types ≠ [] := by
      rcases hvoc with h1 | h1 | h1 | h1 | h1 <;> simp [h1]
    have hv : ∀ t ∈ item.types, t ∈ typeVocab := by
      rcases hvoc with h1 | h1 | h1 | h1 | h1 <;> rw [h1] <;> decide
    refine ⟨hne, hv, hnm, ?_, ?_⟩
    · rw [hyr]; trivial
    · rw [hyr]; intro hcon; exact absurd rfl hcon

theorem flatten_eq_nil {L : List (List CopyrightItem)} (h : ∀ l ∈ L, l = []) :
    L.flatten = [] := by
  induction L with
  | nil => rfl
  | cons a L ih =>
    rw [List.flatten_cons, h a (List.mem_cons_self a L),
      ih (fun l hl => h l (List.mem_cons_of_mem a hl))]
    rfl

/-- C1: the parser is a total function of the input text - every
pattern-match step returns an `Option` handled as "no match" - and an input
none of whose (normalized) lines contains a rights symbol or a relation
phrase parses to the empty record sequence. -/
theorem claim_C1_empty_on_unrecognized :
    ∀ text : String,
    ((splitLines text.toList).all (fun line =>
      (normLine line).all (fun c => !(isSym c)) && relFreeB (normLine line))) = true →
    parseCopyrightNotice text = [] := by
  intro text h
  rw [List.all_eq_true] at h
  simp only [parseCopyrightNotice]
  apply flatten_eq_nil
  intro recs hr
  rw [List.mem_map] at hr
  obtain ⟨line, hline, rfl⟩ := hr
  have hb := h line hline
  rw [Bool.and_eq_true] at hb
  obtain ⟨h1, h2⟩ := hb
  simp only [lineRecords, scanRights, scanRel]
  rw [scanRightsF_noSym _ _ h1, scanRelF_relFree _ false _ h2]
  rfl

theorem claim_C1_witness :
    parseCopyrightNotice "An unrecognizable plain sentence." = [] :=
  claim_C1_empty_on_unrecognized "An unrecognizable plain sentence." (by decide)

/-- C2 counterexample: in this corpus input the relation clause
("Distributed By", at the very start - the first 30 characters contain no
rights symbol) precedes the ℗ symbol in the source, yet its record is
emitted after the rights-symbol record, so the overall source order of
records is not preserved across the two passes. -/
theorem claim_C2_counterexample :
    parseCopyrightNotice "Distributed By Republic Records.; ℗ 2011 The Weeknd XO, Inc." =
      [{ name := "The Weeknd XO, Inc.", types := ["℗"],
         year := some (YearVal.single "2011") },
       { name := "Republic Records", types := ["distributed by"], year := none }] ∧
    (matchRel ("Distributed By Republic Records.; ℗ 2011 The Weeknd XO, Inc.".toList)).isSome
        = true ∧
    (("Distributed By Republic Records.; ℗ 2011 The Weeknd XO, Inc.".toList.take 30).all
        (fun c => !(isSym c))) = true :=
  ⟨rfl, rfl, rfl⟩

/-- C2 amended: each relation-clause match yields its own record, but the
relation-clause records of a line are appended after all rights-symbol
records of that line regardless of where the clause stands in the line;
order is preserved within each pass and across lines.  Both cited corpus
inputs produce the rights record first. -/
theorem claim_C2_amended_two_pass_order :
    (∀ text : String, parseCopyrightNotice text =
      ((splitLines text.toList).map
        (fun line => scanRights (normLine line) ++ scanRel (normLine line))).flatten) ∧
    parseCopyrightNotice "Distributed By Republic Records.; ℗ 2011 The Weeknd XO, Inc." =
      [{ name := "The Weeknd XO, Inc.", types := ["℗"],
         year := some (YearVal.single "2011") },
       { name := "Republic Records", types := ["distributed by"], year := none }] ∧
    parseCopyrightNotice "℗ 2011 The Weeknd XO, Inc. Distributed By Republic Records." =
      [{ name := "The Weeknd XO, Inc.", types := ["℗"],
         year := some (YearVal.single "2011") },
       { name := "Republic Records", types := ["distributed by"], year := none }] :=
  ⟨fun _ => rfl, rfl, rfl⟩

/-- C3: the parser is deterministic and referentially transparent - identical
input strings yield identical record sequences; in this embedding it is a
total pure function of the text alone, with no hidden state. -/
theorem claim_C3_deterministic :
    ∀ s t : String, s = t → parseCopyrightNotice s = parseCopyrightNotice t := by
  intro s t h
  rw [h]

theorem claim_C3_witness :
    parseCopyrightNotice "© 2021 Universal Music New Zealand Limited" =
      parseCopyrightNotice "© 2021 Universal Music New Zealand Limited" :=
  claim_C3_deterministic _ _ rfl

/-- C4: a record's year is present only when its `types` contain a rights
symbol (so pure relation-clause records carry no year), and a missing year is
absent (`none`), never a null or empty sentinel. -/
theorem claim_C4_year_only_with_rights_symbol :
    ∀ (text : String) (item : CopyrightItem), item ∈ parseCopyrightNotice text →
    (item.year ≠ none → "©" ∈ item.types ∨ "℗" ∈ item.types) ∧ yearOk item.year := by
  intro text item h
  obtain ⟨-, -, -, hyok, himp⟩ := parse_item_inv text item h
  exact ⟨himp, hyok⟩

/-- The single record of the corpus input "© 2021 Universal Music New Zealand
Limited", used as a concrete instance below. -/
def uniItemC : CopyrightItem :=
  { name := "Universal Music New Zealand Limited", types := ["©"],
    year := some (YearVal.single "2021") }

theorem claim_C4_witness :
    (uniItemC.year ≠ none → "©" ∈ uniItemC.types ∨ "℗" ∈ uniItemC.types) ∧
    yearOk uniItemC.year :=
  claim_C4_year_only_with_rights_symbol "© 2021 Universal Music New Zealand Limited" uniItemC
    (by decide)

/-- C5: `types` preserves the left-to-right source order of the symbols in a
combined cluster: for every input tail, each record anchored at a cluster
reading ℗ then © (joined as "℗ & ©" or glued as "℗©") has
types = ["℗", "©"]; the cited corpus inputs evaluate accordingly and the
reversed cluster "©℗" conversely yields ["©", "℗"]. -/
theorem claim_C5_symbol_order :
    (∀ (tail : List Char) (item : CopyrightItem),
      item ∈ scanRights ('℗' :: ' ' :: '&' :: ' ' :: '©' :: tail) →
      item.types = ["℗", "©"] ∨ item ∈ scanRights tail) ∧
    (∀ (tail : List Char) (item : CopyrightItem),
      item ∈ scanRights ('℗' :: '©' :: tail) →
      item.types = ["℗", "©"] ∨ item ∈ scanRights tail) ∧
    parseCopyrightNotice "℗ & © 2021 Universal Music New Zealand Limited" =
      [{ name := "Universal Music New Zealand Limited", types := ["℗", "©"],
         year := some (YearVal.single "2021") }] ∧
    parseCopyrightNotice "℗© 1974 Asylum Records" =
      [{ name := "Asylum Records", types := ["℗", "©"],
         year := some (YearVal.single "1974") }] ∧
    parseCopyrightNotice "℗ & © «Rare»" =
      [{ name := "Rare", types := ["℗", "©"], year := none }] ∧
    parseCopyrightNotice "©℗ 1974 Asylum Records" =
      [{ name := "Asylum Records", types := ["©", "℗"],
         year := some (YearVal.single "1974") }] := by
  refine ⟨?_, ?_, rfl, rfl, rfl, rfl⟩
  · intro tail item h
    have heq : scanRights ('℗' :: ' ' :: '&' :: ' ' :: '©' :: tail) =
        segItems [symStr '℗', symStr '©'] tail ++
          scanRightsF ((' ' :: '&' :: ' ' :: '©' :: tail).length) tail := rfl
    rw [heq, List.mem_append] at h
    rcases h with h | h
    · exact Or.inl (segItems_mem h).1
    · refine Or.inr ?_
      rw [scanRights]
      rw [← scanRightsF_stable ((' ' :: '&' :: ' ' :: '©' :: tail).length) tail.length tail
        (by simp only [List.length_cons]; omega) (Nat.le_refl _)]
      exact h
  · intro tail item h
    have heq : scanRights ('℗' :: '©' :: tail) =
        segItems [symStr '℗', symStr '©'] tail ++
          scanRightsF (('©' :: tail).length) tail := rfl
    rw [heq, List.mem_append] at h
    rcases h with h | h
    · exact Or.inl (segItems_mem h).1
    · refine Or.inr ?_
      rw [scanRights]
      rw [← scanRightsF_stable (('©' :: tail).length) tail.length tail
        (by simp only [List.length_cons]; omega) (Nat.le_refl _)]
      exact h

/-- The single record of the corpus input "℗ & © 2021 Universal Music New
Zealand Limited", used as a concrete instance below. -/
def uniItemPC : CopyrightItem :=
  { name := "Universal Music New Zealand Limited", types := ["℗", "©"],
    year := some (YearVal.single "2021") }

theorem claim_C5_witness :
    uniItemPC.types = ["℗", "©"] ∨
    uniItemPC ∈ scanRights (" 2021 Universal Music New Zealand Limited".toList) :=
  claim_C5_symbol_order.1 (" 2021 Universal Music New Zealand Limited".toList) uniItemPC
    (by decide)

/-- C6: a delimited list of four-digit years joined by commas and "&" becomes
an ordered sequence of year strings preserving the input order - the cited
corpus input yields the five years in input order, and a deliberately
unsorted year list stays in input order rather than being sorted. -/
theorem claim_C6_multi_year_input_order :
    parseCopyrightNotice "℗ 2014, 2017, 2018, 2019 & 2020 Bruce Springsteen" =
      [{ name := "Bruce Springsteen", types := ["℗"],
         year := some (YearVal.multi ["2014", "2017", "2018", "2019", "2020"]) }] ∧
    parseCopyrightNotice "℗ 2020, 2014 & 2017 Bruce Springsteen" =
      [{ name := "Bruce Springsteen", types := ["℗"],
         year := some (YearVal.multi ["2020", "2014", "2017"]) }] :=
  ⟨rfl, rfl⟩

/-- C7: a slash inside a single entity's own name does not trigger the
multi-entity split (the separator is not followed by a plausible independent
name), while a genuine list of label names separated by slashes is split. -/
theorem claim_C7_name_protecting_split :
    parseCopyrightNotice "© «1983 Universal Music A/S»" =
      [{ name := "Universal Music A/S", types := ["©"],
         year := some (YearVal.single "1983") }] ∧
    parseCopyrightNotice "℗ «2012 Shady Records/Aftermath Records/Interscope Records»" =
      [{ name := "Shady Records", types := ["℗"], year := some (YearVal.single "2012") },
       { name := "Aftermath Records", types := ["℗"], year := some (YearVal.single "2012") },
       { name := "Interscope Records", types := ["℗"], year := some (YearVal.single "2012") }] :=
  ⟨rfl, rfl⟩

/-- C8: each line is parsed independently and the per-line results are
concatenated in source order: splitting any newline-free line off the front
distributes over parsing, and the cited two-line corpus input yields the ©
record of the first line before the ℗ record of the second. -/
theorem claim_C8_multi_line_independence :
    (∀ s1 s2 : String, s1.toList.all (fun c => !(c == '\n')) = true →
      parseCopyrightNotice (s1 ++ "\n" ++ s2) =
        parseCopyrightNotice s1 ++ parseCopyrightNotice s2) ∧
    parseCopyrightNotice "© «2017 The Media Champ»\n℗ «2003 The Media Champ»" =
      [{ name := "The Media Champ", types := ["©"], year := some (YearVal.single "2017") },
       { name := "The Media Champ", types := ["℗"], year := some (YearVal.single "2003") }] := by
  refine ⟨?_, rfl⟩
  intro s1 s2 h
  have ht : (s1 ++ "\n" ++ s2).toList = s1.toList ++ '\n' :: s2.toList := by
    show (s1 ++ "\n" ++ s2).data = s1.data ++ '\n' :: s2.data
    rw [String.data_append, String.data_append]
    simp
  simp only [parseCopyrightNotice]
  rw [ht, splitLines_append _ _ h, splitLines_noNL _ h]
  simp

theorem claim_C8_witness :
    parseCopyrightNotice ("© «2017 The Media Champ»" ++ "\n" ++ "℗ «2003 The Media Champ»") =
      parseCopyrightNotice "© «2017 The Media Champ»" ++
        parseCopyrightNotice "℗ «2003 The Media Champ»" :=
  claim_C8_multi_line_independence.1 "© «2017 The Media Champ»" "℗ «2003 The Media Champ»"
    (by decide)

/-- C9: a rights-symbol segment whose entity name cannot be resolved produces
no record (no parse record ever has an empty name), while other recognizable
segments of the same input still produce theirs - the cited input yields only
the licensed-to record and no ℗ record. -/
theorem claim_C9_unresolvable_segment_dropped :
    parseCopyrightNotice "℗ «Under exclusive licence to Parlophone Records Limited»" =
      [{ name := "Parlophone Records Limited", types := ["licensed to"], year := none }] ∧
    (∀ (text : String) (item : CopyrightItem), item ∈ parseCopyrightNotice text →
      item.name ≠ "") := by
  refine ⟨rfl, ?_⟩
  intro text item h
  exact (parse_item_inv text item h).2.2.1

/-- The single record of the corpus input with an unresolvable ℗ segment,
used as a concrete instance below. -/
def parloItem : CopyrightItem :=
  { name := "Parlophone Records Limited", types := ["licensed to"], year := none }

theorem claim_C9_witness : parloItem.name ≠ "" :=
  claim_C9_unresolvable_segment_dropped.2
    "℗ «Under exclusive licence to Parlophone Records Limited»" parloItem (by decide)

/-- C10: a parenthesized textual alias such as "(P)" is normalized to the
canonical glyph in `types` - every parse record's types are drawn from the
closed vocabulary, which contains glyphs but no aliases - and the
parenthesized "(87)" inside the cited name is neither a symbol nor a year. -/
theorem claim_C10_alias_normalized_types :
    parseCopyrightNotice
        "(P) 2021 Pink Floyd (87) Ltd., under exclusive licence to Sony Music Entertainment" =
      [{ name := "Pink Floyd (87) Ltd.", types := ["℗"],
         year := some (YearVal.single "2021") },
       { name := "Sony Music Entertainment", types := ["licensed to"], year := none }] ∧
    (∀ (text : String) (item : CopyrightItem), item ∈ parseCopyrightNotice text →
      item.types ≠ [] ∧ ∀ t ∈ item.types, t ∈ typeVocab) := by
  refine ⟨rfl, ?_⟩
  intro text item h
  obtain ⟨hne, hv, -, -, -⟩ := parse_item_inv text item h
  exact ⟨hne, hv⟩

/-- The rights record of the corpus input using the "(P)" alias, used as a
concrete instance below. -/
def pf87Item : CopyrightItem :=
  { name := "Pink Floyd (87) Ltd.", types := ["℗"], year := some (YearVal.single "2021") }

theorem claim_C10_witness :
    pf87Item.types ≠ [] ∧ ∀ t ∈ pf87Item.types, t ∈ typeVocab :=
  claim_C10_alias_normalized_types.2
    "(P) 2021 Pink Floyd (87) Ltd., under exclusive licence to Sony Music Entertainment"
    pf87Item (by decide)

end MBParse
